import Mathlib

set_option maxHeartbeats 1000000
set_option linter.unreachableTactic false
set_option linter.unusedTactic false

/-!
Verification of the rendering core of screeps-local-visuals (src/render.rs and
src/assets_data.rs) against its natural-language specification.

Modelling conventions:
* u8 / u32 channel and coordinate values are modelled as naturals; the 8-bit
  wrapping subtractions in the source are modelled by truncated Nat subtraction
  and their no-underflow side conditions are proved separately.
* f32 arithmetic is modelled over the rationals.  Every f32 operation in the
  source is correctly rounded, and at each point where an exact value is
  claimed below (the interpolation endpoints t = 0 and t = 1, blending with a
  fully transparent source pixel, and the division-by-zero-range case where
  Rust produces NaN and the NaN-to-u8 cast produces 0, which coincides with
  Rat division returning 0) the rational and f32 results agree.
* The Rust cast expr as u8 on an f32 saturates into the range 0..=255 and
  truncates toward zero; it is modelled by f32ToU8 below.
-/

/-- An RGBA pixel with 8-bit channels, modelled with unbounded naturals;
all values produced by the definitions below stay under 256.  Mirrors
image::Rgba of u8 channels. -/
structure Pixel where
  r : ℕ
  g : ℕ
  b : ℕ
  a : ℕ
deriving DecidableEq

/-- A rectangular RGBA buffer, modelling image::ImageBuffer (the OutputImage
alias of render.rs).  The pixel map is a total function; the source's
put_pixel / get_pixel panic outside the bounds, and no claim below reaches an
out-of-bounds access. -/
@[ext]
structure Image where
  width : ℕ
  height : ℕ
  pix : ℕ → ℕ → Pixel

/-- The modulus of u32 arithmetic (dimension computations in the source wrap
in release builds). -/
def u32Mod : ℕ := 4294967296

/-- render.rs: DEFAULT_ROOM_MAX_COLUMNS (= ROOM_SIZE = 50). -/
def DEFAULT_ROOM_MAX_COLUMNS : ℕ := 50

/-- render.rs: DEFAULT_ROOM_MAX_ROWS (= ROOM_SIZE = 50). -/
def DEFAULT_ROOM_MAX_ROWS : ℕ := 50

/-- render.rs: DEFAULT_SCALE_FACTOR. -/
def DEFAULT_SCALE_FACTOR : ℕ := 50

/-- image::ImageBuffer::new allocates a zero-initialized buffer: every
channel of every pixel is 0 (transparent black). -/
def mkImageBuffer (w h : ℕ) : Image :=
  ⟨w, h, fun _ _ => ⟨0, 0, 0, 0⟩⟩

/-- render.rs create_image_with_size_params: allocates a buffer of
(cols*scale + 1) by (rows*scale + 1) pixels (u32 arithmetic) and then sets
every in-bounds pixel to opaque black (0,0,0,255) via enumerate_pixels_mut. -/
def create_image_with_size_params (room_max_cols room_max_rows scale_factor : ℕ) : Image :=
  let w := (room_max_cols * scale_factor + 1) % u32Mod
  let h := (room_max_rows * scale_factor + 1) % u32Mod
  let base := mkImageBuffer w h
  { base with pix := fun i j =>
      if i < w ∧ j < h then ⟨0, 0, 0, 255⟩ else base.pix i j }

/-- render.rs create_image: the default-parameter wrapper. -/
def create_image : Image :=
  create_image_with_size_params DEFAULT_ROOM_MAX_COLUMNS DEFAULT_ROOM_MAX_ROWS DEFAULT_SCALE_FACTOR

/-- render.rs draw_grid_with_scale_factor: every in-bounds pixel whose x or y
coordinate is an exact multiple of the scale factor is overwritten with
translucent white (255,255,255,128); other pixels are untouched. -/
def draw_grid_with_scale_factor (imgbuf : Image) (scale_factor : ℕ) : Image :=
  { imgbuf with pix := fun i j =>
      if i < imgbuf.width ∧ j < imgbuf.height ∧ (i % scale_factor = 0 ∨ j % scale_factor = 0)
      then ⟨255, 255, 255, 128⟩
      else imgbuf.pix i j }

/-- render.rs draw_grid: default-scale wrapper. -/
def draw_grid (imgbuf : Image) : Image :=
  draw_grid_with_scale_factor imgbuf DEFAULT_SCALE_FACTOR

/-- render.rs lerp: (1 - t) * v0 + t * v1, f32 arithmetic modelled over ℚ. -/
def lerp (v0 v1 t : ℚ) : ℚ :=
  (1 - t) * v0 + t * v1

/-- The Rust cast of an f32 to u8: saturate into 0..=255 and truncate toward
zero (NaN casts to 0; with ℚ standing in for f32, the only NaN sources
reachable in render.rs are divisions 0/0, and Rat division returns 0 there,
so the model agrees). -/
def f32ToU8 (x : ℚ) : ℕ :=
  min 255 (Int.toNat ⌊x⌋)

/-- The clamping of a cost value into the range v_min..=v_max performed by
get_cost_matrix_alpha_overlay (the skip-policy early exits are handled at the
per-cell step; this is the value computed when the cell is not skipped). -/
def clampValue (value vmin vmax : ℕ) : ℕ :=
  if vmax < value then vmax
  else if value < vmin then vmin
  else value

/-- The interpolation parameter (clamped_value - v_min) / (v_max - v_min)
of get_cost_matrix_alpha_overlay; both subtractions are u8 subtractions in
the source, modelled by truncated Nat subtraction. -/
def tParam (clamped vmin vmax : ℕ) : ℚ :=
  ((clamped - vmin : ℕ) : ℚ) / ((vmax - vmin : ℕ) : ℚ)

/-- The blue channel b = b_max - (lerp(0.0, b_max, t) as u8) of
get_cost_matrix_alpha_overlay; the outer subtraction is a u8 subtraction,
modelled by truncated Nat subtraction. -/
def blueChannel (clamped vmin vmax bmax : ℕ) : ℕ :=
  bmax - f32ToU8 (lerp 0 (bmax : ℚ) (tParam clamped vmin vmax))

/-- The red/green channel others = lerp(b_max, 0.0, b / b_max) as u8 of
get_cost_matrix_alpha_overlay. -/
def othersChannel (b bmax : ℕ) : ℕ :=
  f32ToU8 (lerp (bmax : ℚ) 0 ((b : ℚ) / (bmax : ℚ)))

/-- The RGBA value painted for one non-skipped cost-matrix cell by
get_cost_matrix_alpha_overlay: red = green = others, blue = b, alpha = a
unless the cell value is 0, in which case alpha = 0. -/
def cellRgba (value vmin vmax bmax a : ℕ) : Pixel :=
  let clamped := clampValue value vmin vmax
  let b := blueChannel clamped vmin vmax bmax
  let o := othersChannel b bmax
  ⟨o, o, b, if value = 0 then 0 else a⟩

example : cellRgba 5 0 10 200 100 = ⟨100, 100, 100, 100⟩ := by
  norm_num [cellRgba, blueChannel, othersChannel, clampValue, tParam, f32ToU8, lerp,
    Pixel.mk.injEq]
  all_goals try simp
  all_goals try norm_num
  all_goals try simp
  all_goals try omega

example : cellRgba 0 0 10 200 100 = ⟨0, 0, 200, 0⟩ := by
  norm_num [cellRgba, blueChannel, othersChannel, clampValue, tParam, f32ToU8, lerp,
    Pixel.mk.injEq]
  all_goals try simp
  all_goals try norm_num
  all_goals try simp
  all_goals try omega

example : cellRgba 10 0 10 200 100 = ⟨200, 200, 0, 100⟩ := by
  norm_num [cellRgba, blueChannel, othersChannel, clampValue, tParam, f32ToU8, lerp,
    Pixel.mk.injEq]
  all_goals try simp
  all_goals try norm_num
  all_goals try simp
  all_goals try omega

example : cellRgba 5 5 5 200 100 = ⟨0, 0, 200, 100⟩ := by
  norm_num [cellRgba, blueChannel, othersChannel, clampValue, tParam, f32ToU8, lerp,
    Pixel.mk.injEq]
  all_goals try simp
  all_goals try norm_num
  all_goals try simp
  all_goals try omega

/-- One entry of a screeps LocalCostMatrix iteration: a cell position (x, y)
with its u8 cost value.  LocalCostMatrix::iter yields every room position
exactly once; lists whose positions are pairwise distinct generalize it. -/
abbrev CMEntry : Type := (ℕ × ℕ) × ℕ

/-- Painting the scale-by-scale pixel block with top-left corner (xs, ys):
the two nested put_pixel loops of get_cost_matrix_alpha_overlay (and of
get_tile_alpha_overlay).  put_pixel would panic outside the buffer bounds;
the model writes the total pixel map. -/
def putBlock (img : Image) (xs ys s : ℕ) (p : Pixel) : Image :=
  { img with pix := fun i j =>
      if xs ≤ i ∧ i < xs + s ∧ ys ≤ j ∧ j < ys + s then p else img.pix i j }

/-- The body of the per-cell loop of get_cost_matrix_alpha_overlay: a cell
whose value is out of the range v_min..=v_max is skipped entirely when
skip_out_of_bounds_values is set; otherwise its block is painted with the
cellRgba color. -/
def overlayCellStep (s vmin vmax bmax a : ℕ) (skip : Bool) (img : Image) (e : CMEntry) : Image :=
  if skip ∧ (vmax < e.2 ∨ e.2 < vmin) then img
  else putBlock img (e.1.1 * s + 1) (e.1.2 * s + 1) s (cellRgba e.2 vmin vmax bmax a)

/-- render.rs get_cost_matrix_alpha_overlay: a fresh zero-initialized buffer
of the given dimensions, with the block of every surviving cost-matrix cell
painted with its computed RGBA. -/
def get_cost_matrix_alpha_overlay (cm : List CMEntry) (overlay_width overlay_height s vmin vmax bmax a : ℕ) (skip : Bool) : Image :=
  cm.foldl (overlayCellStep s vmin vmax bmax a skip) (mkImageBuffer overlay_width overlay_height)

/-- image::Rgba::blend for u8 channels (the image crate, color.rs): straight
alpha-over compositing of the foreground fg onto the background bg, computed
in f32 (modelled over ℚ) on channels scaled into 0..=1, with the final
NumCast back to u8 truncating toward zero.  An exactly transparent result
alpha leaves the background pixel untouched. -/
def blendPixel (bg fg : Pixel) : Pixel :=
  let maxT : ℚ := 255
  let bgR := (bg.r : ℚ) / maxT
  let bgG := (bg.g : ℚ) / maxT
  let bgB := (bg.b : ℚ) / maxT
  let bgA := (bg.a : ℚ) / maxT
  let fgR := (fg.r : ℚ) / maxT
  let fgG := (fg.g : ℚ) / maxT
  let fgB := (fg.b : ℚ) / maxT
  let fgA := (fg.a : ℚ) / maxT
  let alphaFinal := bgA + fgA - bgA * fgA
  if alphaFinal = 0 then bg
  else
    let outR := (fgR * fgA + bgR * bgA * (1 - fgA)) / alphaFinal
    let outG := (fgG * fgA + bgG * bgA * (1 - fgA)) / alphaFinal
    let outB := (fgB * fgA + bgB * bgA * (1 - fgA)) / alphaFinal
    ⟨Int.toNat ⌊maxT * outR⌋, Int.toNat ⌊maxT * outG⌋,
     Int.toNat ⌊maxT * outB⌋, Int.toNat ⌊maxT * alphaFinal⌋⟩

/-- image::imageops::overlay of a top buffer onto a bottom buffer with the
top-left corner of the top buffer at (x, y) (the source passes the offsets as
non-negative i64 values): the overlap region is clipped to both buffers and
each overlapping pixel is alpha-blended. -/
def overlayComposite (bottom top : Image) (x y : ℕ) : Image :=
  let rw := min top.width (bottom.width - x)
  let rh := min top.height (bottom.height - y)
  { bottom with pix := fun i j =>
      if x ≤ i ∧ i < x + rw ∧ y ≤ j ∧ j < y + rh
      then blendPixel (bottom.pix i j) (top.pix (i - x) (j - y))
      else bottom.pix i j }

/-- render.rs draw_cost_matrix_with_scale_factor, canvas-pixel effect: the
alpha overlay computed from the cost matrix is composited onto the canvas at
(0, 0).  The subsequent text pass rasterizes labels through the external
imageproc / rusttype collaborators; it is modelled separately as the command
list draw_cost_matrix_labels. -/
def draw_cost_matrix_with_scale_factor (imgbuf : Image) (cm : List CMEntry) (vmin vmax bmax a s : ℕ) (skip : Bool) : Image :=
  overlayComposite imgbuf
    (get_cost_matrix_alpha_overlay cm imgbuf.width imgbuf.height s vmin vmax bmax a skip) 0 0

/-- render.rs draw_cost_matrix: default-scale wrapper (canvas-pixel effect). -/
def draw_cost_matrix (imgbuf : Image) (cm : List CMEntry) (vmin vmax bmax a : ℕ) (skip : Bool) : Image :=
  draw_cost_matrix_with_scale_factor imgbuf cm vmin vmax bmax a DEFAULT_SCALE_FACTOR skip

/-- One call to draw_text_number_xy_with_scale_factor issued by the text loop
of draw_cost_matrix_with_scale_factor: target cell, label text, canvas scale
factor and font scale factor. -/
structure TextCmd where
  col : ℕ
  row : ℕ
  text : String
  scaleFactor : ℕ
  textScale : ℕ
deriving DecidableEq

/-- The font scale chosen by the text loop of
draw_cost_matrix_with_scale_factor: values of two or more digits use
(scale_factor as f32 * 0.75) as u32, i.e. the truncation of 0.75 * scale. -/
def textScaleFor (s value : ℕ) : ℕ :=
  if 9 < value then Int.toNat ⌊(s : ℚ) * (3 / 4)⌋ else s

/-- The text loop of draw_cost_matrix_with_scale_factor as a list of draw
commands: zero-valued cells are always omitted, out-of-range cells are
omitted under the skip policy, and every surviving cell gets one label with
its value as text. -/
def draw_cost_matrix_labels (cm : List CMEntry) (vmin vmax s : ℕ) (skip : Bool) : List TextCmd :=
  cm.filterMap fun e =>
    if e.2 = 0 then none
    else if skip ∧ (vmax < e.2 ∨ e.2 < vmin) then none
    else some ⟨e.1.1, e.1.2, toString e.2, s, textScaleFor s e.2⟩

/-- image::imageops::resize with FilterType::Nearest, modelled from its
interface: the result has exactly the requested dimensions and samples the
source by nearest-neighbor.  Only the dimensions are relied on below. -/
def nearestResize (img : Image) (nw nh : ℕ) : Image :=
  ⟨nw, nh, fun i j => img.pix (i * img.width / nw) (j * img.height / nh)⟩

/-- render.rs draw_tile_img_xy: resize the tile to scale-by-scale when its
native dimensions differ from the scale factor, then composite it onto the
canvas with its top-left corner at (col*scale + 1, row*scale + 1). -/
def draw_tile_img_xy (imgbuf : Image) (col row : ℕ) (tile_img : Image) (scale_factor : ℕ) : Image :=
  let t := if scale_factor ≠ tile_img.width ∨ scale_factor ≠ tile_img.height
           then nearestResize tile_img scale_factor scale_factor
           else tile_img
  overlayComposite imgbuf t (col * scale_factor + 1) (row * scale_factor + 1)

/-- Modelled from the spec: imageproc::drawing::text_size, the external
font-measurement collaborator (the decoded FreeMono font is a fixed baked-in
asset).  The spec's fit algorithm treats the measured width as proportional
to the uniform font scale (its single-step correction scales "down
proportionally"); the model takes the per-text width factor k (pixels of
width per unit of scale, determined by the font and the text) and truncates
the measured width to whole pixels as text_size does. -/
def text_size_width (k : ℚ) (scale : ℚ) : ℤ :=
  ⌊k * scale⌋

/-- render.rs calculate_centered_text_scale: measure the text at the default
scale (the cell area); when the measured width exceeds the area, scale down
by the single proportional ratio area / measured_width and re-measure.
Returns the chosen uniform scale and the re-measured width. -/
def calculate_centered_text_scale (k : ℚ) (area : ℕ) : ℚ × ℤ :=
  let default_scale : ℚ := (area : ℚ)
  let x := text_size_width k default_scale
  if (area : ℤ) < x then
    let ratio := (area : ℚ) / (x : ℚ)
    let new_scale := (area : ℚ) * ratio
    (new_scale, text_size_width k new_scale)
  else
    (default_scale, x)

/-- render.rs draw_centered_text_number_xy, scale-selection step: the text
area is the cell size minus a 2-pixel border on each side. -/
def draw_centered_text_number_scale (k : ℚ) : ℚ × ℤ :=
  calculate_centered_text_scale k (DEFAULT_SCALE_FACTOR - 2 * 2)

/-- render.rs Resource: the internal tile variants for resources. -/
inductive Resource where
  | Source
  | Hydrogen
  | Oxygen
  | Keanium
  | Lemergium
  | Utrium
  | Zynthium
  | Catalyst
  | Unknown
deriving DecidableEq

/-- render.rs BuildableStructure: the internal tile variants for structures. -/
inductive BuildableStructure where
  | ConstructedWall
  | Container
  | Controller
  | Extension
  | Extractor
  | Factory
  | Lab
  | Link
  | Nuker
  | Observer
  | PowerSpawn
  | Rampart
  | Road
  | Spawn
  | Storage
  | Terminal
  | Tower
  | Unknown
deriving DecidableEq

/-- The external screeps ResourceType enum: the seven mineral kinds the
conversion in render.rs names, plus Other n standing for every one of the
many remaining resource kinds (Energy, Power, the compounds, ...), all of
which reach the conversion's wildcard arm. -/
inductive ResourceType where
  | Hydrogen
  | Oxygen
  | Keanium
  | Lemergium
  | Utrium
  | Zynthium
  | Catalyst
  | Other (n : ℕ)
deriving DecidableEq

/-- The external screeps StructureType enum: the seventeen kinds the
conversion in render.rs names, plus Other n standing for every remaining
kind (KeeperLair, Portal, PowerBank, InvaderCore, ...), all of which reach
the conversion's wildcard arm. -/
inductive StructureType where
  | Wall
  | Container
  | Controller
  | Extension
  | Extractor
  | Factory
  | Lab
  | Link
  | Nuker
  | Observer
  | PowerSpawn
  | Rampart
  | Road
  | Spawn
  | Storage
  | Terminal
  | Tower
  | Other (n : ℕ)
deriving DecidableEq

/-- render.rs TryFrom of ResourceType for Resource: always Ok; the named
mineral kinds map to their variants and the wildcard arm maps everything
else to Unknown. -/
def resource_try_from (resource_type : ResourceType) : Except Unit Resource :=
  .ok (match resource_type with
    | .Hydrogen => .Hydrogen
    | .Oxygen => .Oxygen
    | .Keanium => .Keanium
    | .Lemergium => .Lemergium
    | .Utrium => .Utrium
    | .Zynthium => .Zynthium
    | .Catalyst => .Catalyst
    | _ => .Unknown)

/-- render.rs TryFrom of StructureType for BuildableStructure: always Ok;
the named structure kinds map to their variants (Wall to ConstructedWall)
and the wildcard arm maps everything else to Unknown. -/
def buildablestructure_try_from (structure_type : StructureType) : Except Unit BuildableStructure :=
  .ok (match structure_type with
    | .Wall => .ConstructedWall
    | .Container => .Container
    | .Controller => .Controller
    | .Extension => .Extension
    | .Extractor => .Extractor
    | .Factory => .Factory
    | .Lab => .Lab
    | .Link => .Link
    | .Nuker => .Nuker
    | .Observer => .Observer
    | .PowerSpawn => .PowerSpawn
    | .Rampart => .Rampart
    | .Road => .Road
    | .Spawn => .Spawn
    | .Storage => .Storage
    | .Terminal => .Terminal
    | .Tower => .Tower
    | _ => .Unknown)

/-! Helper lemmas shared by the claim theorems. -/

lemma lerp_zero_left (b t : ℚ) : lerp 0 b t = t * b := by
  unfold lerp; ring

lemma f32ToU8_zero : f32ToU8 0 = 0 := by
  unfold f32ToU8
  norm_num

lemma f32ToU8_natCast (n : ℕ) (hn : n ≤ 255) : f32ToU8 ((n : ℚ)) = n := by
  unfold f32ToU8
  rw [Int.floor_natCast, Int.toNat_natCast]
  omega

lemma f32ToU8_mono {x y : ℚ} (h : x ≤ y) : f32ToU8 x ≤ f32ToU8 y := by
  unfold f32ToU8
  exact min_le_min (le_refl 255) (Int.toNat_le_toNat (Int.floor_le_floor h))

lemma f32ToU8_le_of_le (x : ℚ) (n : ℕ) (h : x ≤ (n : ℚ)) : f32ToU8 x ≤ n := by
  unfold f32ToU8
  refine le_trans (min_le_right _ _) ?_
  have : ⌊x⌋ ≤ (n : ℤ) := by
    calc ⌊x⌋ ≤ ⌊(n : ℚ)⌋ := Int.floor_le_floor h
    _ = n := Int.floor_natCast n
  omega

lemma clampValue_of_mem (v vmin vmax : ℕ) (h1 : vmin ≤ v) (h2 : v ≤ vmax) :
    clampValue v vmin vmax = v := by
  unfold clampValue
  split_ifs <;> omega

lemma clampValue_bounds (v vmin vmax : ℕ) (h : vmin ≤ vmax) :
    vmin ≤ clampValue v vmin vmax ∧ clampValue v vmin vmax ≤ vmax := by
  unfold clampValue
  split_ifs <;> omega

lemma tParam_nonneg (c vmin vmax : ℕ) : 0 ≤ tParam c vmin vmax := by
  unfold tParam
  positivity

lemma tParam_le_one (c vmin vmax : ℕ) (hc : c ≤ vmax) : tParam c vmin vmax ≤ 1 := by
  unfold tParam
  rcases Nat.eq_or_lt_of_le (Nat.zero_le (vmax - vmin)) with hz | hpos
  · rw [← hz]
    norm_num
  · apply div_le_one_of_le
    · exact_mod_cast Nat.sub_le_sub_right hc vmin
    · positivity

/-- Claim C10: under the precondition v_min ≤ v_max, every processed cell's
clamped value lies in [v_min, v_max] (so the 8-bit subtraction
clamped_value - v_min never underflows), and the truncated
lerp(0, b_max, t) is at most b_max (so the 8-bit subtraction
b_max - lerp(...) never underflows): the per-cell color computation of
get_cost_matrix_alpha_overlay is panic-free. -/
theorem heatmap_color_no_underflow (value vmin vmax bmax : ℕ) (h : vmin ≤ vmax) :
    vmin ≤ clampValue value vmin vmax ∧
    clampValue value vmin vmax ≤ vmax ∧
    f32ToU8 (lerp 0 (bmax : ℚ) (tParam (clampValue value vmin vmax) vmin vmax)) ≤ bmax := by
  obtain ⟨hlo, hhi⟩ := clampValue_bounds value vmin vmax h
  refine ⟨hlo, hhi, ?_⟩
  rw [lerp_zero_left]
  apply f32ToU8_le_of_le
  calc tParam (clampValue value vmin vmax) vmin vmax * bmax
      ≤ 1 * bmax := by
        apply mul_le_mul_of_nonneg_right (tParam_le_one _ _ _ hhi)
        positivity
    _ = (bmax : ℚ) := by ring

/-- Witness for C10 at value = 17, v_min = 3, v_max = 12, b_max = 200. -/
theorem heatmap_color_no_underflow_witness :
    3 ≤ clampValue 17 3 12 ∧
    clampValue 17 3 12 ≤ 12 ∧
    f32ToU8 (lerp 0 ((200 : ℕ) : ℚ) (tParam (clampValue 17 3 12) 3 12)) ≤ 200 :=
  heatmap_color_no_underflow 17 3 12 200 (by decide)

/-- Claim C5: for all valid (cols, rows, scale) — the derived dimensions not
overflowing u32 arithmetic — create_image_with_size_params returns a buffer
of exactly (cols*scale + 1) by (rows*scale + 1) pixels in which every pixel
is opaque black (0,0,0,255). -/
theorem create_image_dims_and_fill (cols rows s : ℕ)
    (hw : cols * s + 1 < u32Mod) (hh : rows * s + 1 < u32Mod) :
    (create_image_with_size_params cols rows s).width = cols * s + 1 ∧
    (create_image_with_size_params cols rows s).height = rows * s + 1 ∧
    ∀ i j, i < cols * s + 1 → j < rows * s + 1 →
      (create_image_with_size_params cols rows s).pix i j = ⟨0, 0, 0, 255⟩ := by
  unfold create_image_with_size_params mkImageBuffer
  simp only
  rw [Nat.mod_eq_of_lt hw, Nat.mod_eq_of_lt hh]
  refine ⟨rfl, rfl, ?_⟩
  intro i j hi hj
  simp [hi, hj]

/-- Witness for C5 at cols = 2, rows = 3, scale = 4. -/
theorem create_image_dims_and_fill_witness :
    (create_image_with_size_params 2 3 4).width = 2 * 4 + 1 ∧
    (create_image_with_size_params 2 3 4).height = 3 * 4 + 1 ∧
    ∀ i j, i < 2 * 4 + 1 → j < 3 * 4 + 1 →
      (create_image_with_size_params 2 3 4).pix i j = ⟨0, 0, 0, 255⟩ :=
  create_image_dims_and_fill 2 3 4 (by decide) (by decide)

/-- Claim C7: draw_grid is idempotent — a second call with the same scale
changes nothing; every in-bounds pixel whose x or y coordinate is an exact
multiple of the scale becomes translucent white (255,255,255,128) and all
other pixels are untouched. -/
theorem draw_grid_idempotent (imgbuf : Image) (s : ℕ) (hs : 0 < s) :
    draw_grid_with_scale_factor (draw_grid_with_scale_factor imgbuf s) s =
      draw_grid_with_scale_factor imgbuf s ∧
    (∀ i j, i < imgbuf.width → j < imgbuf.height → (i % s = 0 ∨ j % s = 0) →
      (draw_grid_with_scale_factor imgbuf s).pix i j = ⟨255, 255, 255, 128⟩) ∧
    (∀ i j, ¬(i % s = 0 ∨ j % s = 0) →
      (draw_grid_with_scale_factor imgbuf s).pix i j = imgbuf.pix i j) := by
  refine ⟨?_, ?_, ?_⟩
  · apply Image.ext
    · rfl
    · rfl
    · funext i j
      by_cases hc : i < imgbuf.width ∧ j < imgbuf.height ∧ (i % s = 0 ∨ j % s = 0)
      · simp [draw_grid_with_scale_factor, hc]
      · simp [draw_grid_with_scale_factor, hc]
  · intro i j hi hj hmul
    simp [draw_grid_with_scale_factor, hi, hj, hmul]
  · intro i j hmul
    simp [draw_grid_with_scale_factor, hmul]

/-- Witness for C7 on the canvas created with cols = 2, rows = 1, scale = 2. -/
theorem draw_grid_idempotent_witness :
    draw_grid_with_scale_factor
        (draw_grid_with_scale_factor (create_image_with_size_params 2 1 2) 2) 2 =
      draw_grid_with_scale_factor (create_image_with_size_params 2 1 2) 2 ∧
    (∀ i j, i < (create_image_with_size_params 2 1 2).width →
      j < (create_image_with_size_params 2 1 2).height → (i % 2 = 0 ∨ j % 2 = 0) →
      (draw_grid_with_scale_factor (create_image_with_size_params 2 1 2) 2).pix i j =
        ⟨255, 255, 255, 128⟩) ∧
    (∀ i j, ¬(i % 2 = 0 ∨ j % 2 = 0) →
      (draw_grid_with_scale_factor (create_image_with_size_params 2 1 2) 2).pix i j =
        (create_image_with_size_params 2 1 2).pix i j) :=
  draw_grid_idempotent (create_image_with_size_params 2 1 2) 2 (by decide)

/-- Claim C9: the conversions from the external resource and structure types
to the internal tile variants are total — every value converts successfully,
and every value outside the explicitly listed set maps to Unknown. -/
theorem tile_conversions_total :
    (∀ rt : ResourceType, ∃ r : Resource, resource_try_from rt = .ok r) ∧
    (∀ st : StructureType, ∃ b : BuildableStructure, buildablestructure_try_from st = .ok b) ∧
    (∀ n : ℕ, resource_try_from (.Other n) = .ok .Unknown) ∧
    (∀ n : ℕ, buildablestructure_try_from (.Other n) = .ok .Unknown) := by
  refine ⟨?_, ?_, ?_, ?_⟩
  · intro rt
    cases rt <;> exact ⟨_, rfl⟩
  · intro st
    cases st <;> exact ⟨_, rfl⟩
  · intro n
    rfl
  · intro n
    rfl

lemma cellRgba_blue (value vmin vmax bmax a : ℕ) :
    (cellRgba value vmin vmax bmax a).b =
      blueChannel (clampValue value vmin vmax) vmin vmax bmax := rfl

/-- Claim C1: for v_min < v_max and fixed b_max, the heatmap blue channel of
a cell at value v_min is exactly b_max, at v_max it is exactly 0, and it is
non-increasing as the cell value increases within [v_min, v_max]. -/
theorem heatmap_blue_endpoints_monotone (vmin vmax bmax a : ℕ)
    (hrange : vmin < vmax) (hb : bmax ≤ 255) :
    (cellRgba vmin vmin vmax bmax a).b = bmax ∧
    (cellRgba vmax vmin vmax bmax a).b = 0 ∧
    ∀ v₁ v₂, vmin ≤ v₁ → v₁ ≤ v₂ → v₂ ≤ vmax →
      (cellRgba v₂ vmin vmax bmax a).b ≤ (cellRgba v₁ vmin vmax bmax a).b := by
  have hrangeQ : (0 : ℚ) < ((vmax - vmin : ℕ) : ℚ) := by
    have : 0 < vmax - vmin := by omega
    exact_mod_cast this
  refine ⟨?_, ?_, ?_⟩
  · rw [cellRgba_blue, clampValue_of_mem vmin vmin vmax (le_refl vmin) (le_of_lt hrange)]
    unfold blueChannel
    have ht : tParam vmin vmin vmax = 0 := by
      unfold tParam
      rw [Nat.sub_self]
      norm_num
    rw [ht, lerp_zero_left, zero_mul, f32ToU8_zero, Nat.sub_zero]
  · rw [cellRgba_blue, clampValue_of_mem vmax vmin vmax (le_of_lt hrange) (le_refl vmax)]
    unfold blueChannel
    have ht : tParam vmax vmin vmax = 1 := by
      unfold tParam
      exact div_self (ne_of_gt hrangeQ)
    rw [ht, lerp_zero_left, one_mul, f32ToU8_natCast bmax hb, Nat.sub_self]
  · intro v₁ v₂ h1 h12 h2
    rw [cellRgba_blue, cellRgba_blue,
      clampValue_of_mem v₁ vmin vmax h1 (le_trans h12 h2),
      clampValue_of_mem v₂ vmin vmax (le_trans h1 h12) h2]
    unfold blueChannel
    apply Nat.sub_le_sub_left
    apply f32ToU8_mono
    rw [lerp_zero_left, lerp_zero_left]
    apply mul_le_mul_of_nonneg_right ?_ (by positivity)
    unfold tParam
    apply div_le_div_of_le_of_nonneg ?_ hrangeQ.le
    exact_mod_cast Nat.sub_le_sub_right h12 vmin

/-- Witness for C1 at v_min = 2, v_max = 12, b_max = 200, alpha = 100. -/
theorem heatmap_blue_endpoints_monotone_witness :
    (cellRgba 2 2 12 200 100).b = 200 ∧
    (cellRgba 12 2 12 200 100).b = 0 ∧
    ∀ v₁ v₂, 2 ≤ v₁ → v₁ ≤ v₂ → v₂ ≤ 12 →
      (cellRgba v₂ 2 12 200 100).b ≤ (cellRgba v₁ 2 12 200 100).b :=
  heatmap_blue_endpoints_monotone 2 12 200 100 (by decide) (by decide)

/-- Claim C6: drawing a tile modifies only the pixels of the scale-by-scale
block whose top-left corner is (col*scale + 1, row*scale + 1); every pixel
outside that block is unchanged, for every tile image (hence every tile
kind) and every positive scale. -/
theorem draw_tile_only_block (imgbuf tile_img : Image) (col row s : ℕ) (hs : 0 < s)
    (i j : ℕ)
    (hout : ¬(col * s + 1 ≤ i ∧ i < col * s + 1 + s ∧
              row * s + 1 ≤ j ∧ j < row * s + 1 + s)) :
    (draw_tile_img_xy imgbuf col row tile_img s).pix i j = imgbuf.pix i j := by
  unfold draw_tile_img_xy
  set t := if s ≠ tile_img.width ∨ s ≠ tile_img.height
           then nearestResize tile_img s s else tile_img with ht
  have htw : t.width = s := by
    rw [ht]
    split_ifs with hcond
    · rfl
    · push_neg at hcond
      exact hcond.1.symm
  have hth : t.height = s := by
    rw [ht]
    split_ifs with hcond
    · rfl
    · push_neg at hcond
      exact hcond.2.symm
  unfold overlayComposite
  simp only
  rw [if_neg]
  intro hc
  apply hout
  have hw : min t.width (imgbuf.width - (col * s + 1)) ≤ s := by
    rw [htw]; exact min_le_left _ _
  have hhh : min t.height (imgbuf.height - (row * s + 1)) ≤ s := by
    rw [hth]; exact min_le_left _ _
  obtain ⟨g1, g2, g3, g4⟩ := hc
  exact ⟨g1, by omega, g3, by omega⟩

/-- Witness for C6: tile draw at cell (1, 0) with scale 2 on the small test
canvas leaves the pixel (1, 1) — outside the target block — unchanged. -/
theorem draw_tile_only_block_witness :
    (draw_tile_img_xy (create_image_with_size_params 2 1 2) 1 0
        (mkImageBuffer 2 2) 2).pix 1 1 =
      (create_image_with_size_params 2 1 2).pix 1 1 :=
  draw_tile_only_block (create_image_with_size_params 2 1 2) (mkImageBuffer 2 2)
    1 0 2 (by decide) 1 1 (by decide)

/-- Claim C8: the centered auto-fit computation chooses a font scale whose
re-measured text width does not exceed the padded sub-area width, and when
the default-scale width exceeds the area the chosen scale is exactly the
default scale times the single proportional ratio area / measured_width;
the operation draw_centered_text_number_xy applies this with the padded area
cell size minus a 2-pixel border on each side. -/
theorem centered_text_fits (k : ℚ) (area : ℕ) (hk : 0 ≤ k) :
    (calculate_centered_text_scale k area).2 ≤ (area : ℤ) ∧
    ((area : ℤ) < text_size_width k ((area : ℚ)) →
      (calculate_centered_text_scale k area).1 =
        ((area : ℚ)) * (((area : ℚ)) / ((text_size_width k ((area : ℚ))) : ℚ))) ∧
    (draw_centered_text_number_scale k).2 ≤ ((DEFAULT_SCALE_FACTOR - 2 * 2 : ℕ) : ℤ) := by
  have main : ∀ ar : ℕ, (calculate_centered_text_scale k ar).2 ≤ (ar : ℤ) := by
    intro ar
    unfold calculate_centered_text_scale
    by_cases hx : (ar : ℤ) < text_size_width k ((ar : ℚ))
    · rw [if_pos hx]
      simp only
      set x := text_size_width k ((ar : ℚ)) with hxdef
      have hfl : ((x : ℤ) : ℚ) ≤ k * ar := by
        rw [hxdef]
        exact Int.floor_le _
      have hfl2 : k * ar < ((x : ℤ) : ℚ) + 1 := by
        rw [hxdef]
        show k * ((ar : ℚ)) < ((⌊k * ((ar : ℚ))⌋ : ℤ) : ℚ) + 1
        exact Int.lt_floor_add_one _
      have hax : ((ar : ℚ)) + 1 ≤ ((x : ℤ) : ℚ) := by
        have : (ar : ℤ) + 1 ≤ x := hx
        exact_mod_cast this
      have hxpos : (0 : ℚ) < ((x : ℤ) : ℚ) := by
        have h0 : (0 : ℚ) ≤ (ar : ℚ) := Nat.cast_nonneg ar
        linarith
      unfold text_size_width
      have hrw : k * ((ar : ℚ) * ((ar : ℚ) / ((x : ℤ) : ℚ))) =
          k * (ar : ℚ) * (ar : ℚ) / ((x : ℤ) : ℚ) := by
        ring
      rw [hrw]
      have harea0 : (0 : ℚ) ≤ (ar : ℚ) := Nat.cast_nonneg ar
      have hq : k * (ar : ℚ) * (ar : ℚ) / ((x : ℤ) : ℚ) < (ar : ℚ) + 1 := by
        rw [div_lt_iff hxpos]
        have h1 : k * (ar : ℚ) * (ar : ℚ) ≤ ((x : ℚ) + 1) * (ar : ℚ) :=
          mul_le_mul_of_nonneg_right (le_of_lt hfl2) harea0
        nlinarith
      have : ⌊k * (ar : ℚ) * (ar : ℚ) / ((x : ℤ) : ℚ)⌋ < (ar : ℤ) + 1 := by
        rw [Int.floor_lt]
        push_cast
        exact hq
      omega
    · rw [if_neg hx]
      simp only
      omega
  refine ⟨main area, ?_, main (DEFAULT_SCALE_FACTOR - 2 * 2)⟩
  intro hx
  unfold calculate_centered_text_scale
  rw [if_pos hx]

/-- Witness for C8 at width factor k = 3/2 (a text wider than its scale). -/
theorem centered_text_fits_witness :
    (calculate_centered_text_scale (3/2) 10).2 ≤ ((10 : ℕ) : ℤ) ∧
    (((10 : ℕ) : ℤ) < text_size_width (3/2) (((10 : ℕ) : ℚ)) →
      (calculate_centered_text_scale (3/2) 10).1 =
        (((10 : ℕ) : ℚ)) * ((((10 : ℕ) : ℚ)) / ((text_size_width (3/2) (((10 : ℕ) : ℚ))) : ℚ))) ∧
    (draw_centered_text_number_scale (3/2)).2 ≤ ((DEFAULT_SCALE_FACTOR - 2 * 2 : ℕ) : ℤ) :=
  centered_text_fits (3/2) 10 (div_nonneg zero_le_three zero_le_two)

/-- Counterexample to claim C2: draw_cost_matrix has no error channel and
does not reject v_min = v_max = 5 — the call proceeds and the canvas pixel
at (1,1) changes (the zero range divides 0/0, NaN casts to 0, and the cell
is painted blue = b_max and blended). -/
theorem equal_range_not_rejected_counterexample :
    (draw_cost_matrix (create_image_with_size_params 2 1 50)
        [((0, 0), 5)] 5 5 200 100 false).pix 1 1 ≠
      (create_image_with_size_params 2 1 50).pix 1 1 := by
  norm_num [draw_cost_matrix, draw_cost_matrix_with_scale_factor,
    get_cost_matrix_alpha_overlay, overlayCellStep, putBlock, overlayComposite,
    blendPixel, cellRgba, blueChannel, othersChannel, clampValue, tParam,
    f32ToU8, lerp, mkImageBuffer, create_image_with_size_params, u32Mod,
    DEFAULT_SCALE_FACTOR, Pixel.mk.injEq]
  all_goals try simp
  all_goals try norm_num

/-- Claim C2 (amended): calling the heatmap operation with v_min = v_max is
not rejected — draw_cost_matrix returns unit and has no error path.  The
zero range makes the interpolation parameter degenerate (0/0, NaN in f32,
casting to 0), so every nonzero cell is painted with red = green = 0,
blue = b_max and alpha = a, and composited onto the canvas. -/
theorem equal_range_cell_color (v vmin bmax a : ℕ) (hv : v ≠ 0) :
    cellRgba v vmin vmin bmax a = ⟨0, 0, bmax, a⟩ := by
  have hcl : clampValue v vmin vmin = vmin := by
    unfold clampValue
    split_ifs <;> omega
  have ht : tParam vmin vmin vmin = 0 := by
    unfold tParam
    rw [Nat.sub_self]
    norm_num
  have hblue : blueChannel (clampValue v vmin vmin) vmin vmin bmax = bmax := by
    rw [hcl]
    unfold blueChannel
    rw [ht, lerp_zero_left, zero_mul, f32ToU8_zero, Nat.sub_zero]
  have hothers : othersChannel bmax bmax = 0 := by
    unfold othersChannel
    rcases Nat.eq_zero_or_pos bmax with h0 | hpos
    · subst h0
      norm_num [lerp, f32ToU8_zero]
    · have hb : ((bmax : ℚ)) / ((bmax : ℚ)) = 1 := by
        apply div_self
        exact_mod_cast Nat.pos_iff_ne_zero.mp hpos
      rw [hb]
      have : lerp ((bmax : ℚ)) 0 1 = 0 := by
        unfold lerp
        ring
      rw [this, f32ToU8_zero]
  unfold cellRgba
  simp only [hblue, hothers, hv]
  simp [hv]

/-- Witness for the amended C2 at v = 5, v_min = v_max = 5, b_max = 200,
alpha = 100. -/
theorem equal_range_cell_color_witness :
    cellRgba 5 5 5 200 100 = ⟨0, 0, 200, 100⟩ :=
  equal_range_cell_color 5 5 200 100 (by decide)

/-- Counterexample to claim C4: under the clamp policy with v_max = 5 and a
cell of raw value 15, the rendered label uses the reduced 75% font scale
(37 of 50) because 15 > 9, while the same cell holding exactly v_max = 5
uses the full font scale 50 — the label behavior differs beyond the label
text itself. -/
theorem clamp_label_scale_differs_counterexample :
    ((draw_cost_matrix_labels [((0, 0), 15)] 0 5 50 false).map TextCmd.textScale) ≠
      ((draw_cost_matrix_labels [((0, 0), 5)] 0 5 50 false).map TextCmd.textScale) := by
  norm_num [draw_cost_matrix_labels, textScaleFor]
  all_goals try simp
  all_goals try norm_num

/-- Claim C4 (amended): under the clamp (non-skip) policy with
v_min < v_max, a cell of value greater than v_max gets exactly the same
overlay color and alpha as a cell holding exactly v_max, and a label is
rendered for it at the same cell; the label shows the raw (unclamped) value
and its font scale is the reduced one whenever the raw value exceeds 9,
which can differ from the scale of the label of a cell exactly at v_max. -/
theorem clamp_policy_same_color (vmin vmax bmax a v s cx cy : ℕ)
    (h1 : vmin < vmax) (h2 : vmax < v) :
    cellRgba v vmin vmax bmax a = cellRgba vmax vmin vmax bmax a ∧
    draw_cost_matrix_labels [((cx, cy), v)] vmin vmax s false =
      [⟨cx, cy, toString v, s, textScaleFor s v⟩] := by
  constructor
  · have hcl : clampValue v vmin vmax = vmax := by
      unfold clampValue
      split_ifs <;> omega
    have hcl2 : clampValue vmax vmin vmax = vmax := by
      unfold clampValue
      split_ifs <;> omega
    have hv : v ≠ 0 := by omega
    have hvm : vmax ≠ 0 := by omega
    unfold cellRgba
    simp only [hcl, hcl2]
    simp [hv, hvm]
  · have hv : v ≠ 0 := by omega
    simp [draw_cost_matrix_labels, hv]

/-- Witness for the amended C4 at v_min = 0, v_max = 5, value 15, scale 50,
cell (0, 0). -/
theorem clamp_policy_same_color_witness :
    cellRgba 15 0 5 200 100 = cellRgba 5 0 5 200 100 ∧
    draw_cost_matrix_labels [((0, 0), 15)] 0 5 50 false =
      [⟨0, 0, toString 15, 50, textScaleFor 50 15⟩] :=
  clamp_policy_same_color 0 5 200 100 15 50 0 0 (by decide) (by decide)


lemma putBlock_pix_outside (img : Image) (xs ys s : ℕ) (p : Pixel) (i j : ℕ)
    (h : ¬(xs ≤ i ∧ i < xs + s ∧ ys ≤ j ∧ j < ys + s)) :
    (putBlock img xs ys s p).pix i j = img.pix i j := by
  unfold putBlock
  simp only
  rw [if_neg h]

/-- Two scale-sized cell blocks in one dimension that share a pixel have the
same cell index. -/
lemma block_index_eq (s a b i : ℕ)
    (h1 : a * s + 1 ≤ i) (h2 : i < a * s + 1 + s)
    (h1b : b * s + 1 ≤ i) (h2b : i < b * s + 1 + s) : a = b := by
  rcases Nat.lt_trichotomy a b with h | h | h
  · exfalso
    have e1 : (a + 1) * s ≤ b * s := Nat.mul_le_mul_right s (Nat.succ_le_of_lt h)
    have e2 : (a + 1) * s = a * s + s := by ring
    rw [e2] at e1
    set X := a * s
    set Y := b * s
    omega
  · exact h
  · exfalso
    have e1 : (b + 1) * s ≤ a * s := Nat.mul_le_mul_right s (Nat.succ_le_of_lt h)
    have e2 : (b + 1) * s = b * s + s := by ring
    rw [e2] at e1
    set X := a * s
    set Y := b * s
    omega

/-- Blending a fully transparent foreground pixel leaves the background
pixel exactly unchanged: the final alpha equals the background alpha and
un-premultiplying returns the original channel values. -/
lemma blendPixel_transparent_fg (bg fg : Pixel) (hfa : fg.a = 0) :
    blendPixel bg fg = bg := by
  obtain ⟨br, bgch, bb, ba⟩ := bg
  obtain ⟨fr, fgch, fb, fa⟩ := fg
  simp only at hfa
  subst hfa
  unfold blendPixel
  simp only [Nat.cast_zero, zero_div, mul_zero, sub_zero, add_zero, zero_mul, zero_add, mul_one]
  by_cases hba : ((ba : ℚ) / 255) = 0
  · rw [if_pos hba]
  · rw [if_neg hba]
    have h255 : (255 : ℚ) ≠ 0 := by norm_num
    have hch : ∀ c : ℕ,
        (255 : ℚ) * ((c : ℚ) / 255 * ((ba : ℚ) / 255) / ((ba : ℚ) / 255)) = (c : ℚ) := by
      intro c
      rw [mul_div_assoc, div_self hba, mul_one, mul_comm, div_mul_cancel₀ _ h255]
    have halpha : (255 : ℚ) * ((ba : ℚ) / 255) = (ba : ℚ) := by
      rw [mul_comm, div_mul_cancel₀ _ h255]
    rw [hch br, hch bgch, hch bb, halpha]
    simp [Int.floor_natCast, Int.toNat_natCast]

/-- Under the skip policy, a pixel inside the block of a cell whose every
matrix occurrence is out of range is never written by the overlay loop. -/
lemma overlay_fold_pix_preserved (s vmin vmax bmax a : ℕ) (cm : List CMEntry)
    (cx cy i j : ℕ)
    (h1 : cx * s + 1 ≤ i) (h2 : i < cx * s + 1 + s)
    (h3 : cy * s + 1 ≤ j) (h4 : j < cy * s + 1 + s)
    (hcm : ∀ e ∈ cm, e.1 = (cx, cy) → (vmax < e.2 ∨ e.2 < vmin)) :
    ∀ img : Image,
      (cm.foldl (overlayCellStep s vmin vmax bmax a true) img).pix i j = img.pix i j := by
  induction cm with
  | nil =>
    intro img
    rfl
  | cons e tl ih =>
    intro img
    rw [List.foldl_cons]
    rw [ih (fun x hx hfst => hcm x (List.mem_cons_of_mem e hx) hfst)]
    by_cases hout : vmax < e.2 ∨ e.2 < vmin
    · unfold overlayCellStep
      rw [if_pos ⟨rfl, hout⟩]
    · unfold overlayCellStep
      rw [if_neg (fun hc => hout hc.2)]
      apply putBlock_pix_outside
      intro hc
      obtain ⟨g1, g2, g3, g4⟩ := hc
      have hx : e.1.1 = cx := block_index_eq s e.1.1 cx i g1 g2 h1 h2
      have hy : e.1.2 = cy := block_index_eq s e.1.2 cy j g3 g4 h3 h4
      exact hout (hcm e (List.mem_cons_self e tl) (Prod.ext hx hy))

/-- Claim C3: under the skip clip policy, a cost-matrix cell whose value is
outside [v_min, v_max] produces no overlay pixels — every pixel in its
scale-by-scale block is left unchanged by the draw call — and no text label
is issued for that cell. -/
theorem skip_cell_untouched (imgbuf : Image) (cm : List CMEntry)
    (vmin vmax bmax a s cx cy v : ℕ)
    (hmem : ((cx, cy), v) ∈ cm)
    (hpos : cm.Pairwise (fun e₁ e₂ => e₁.1 ≠ e₂.1))
    (hout : vmax < v ∨ v < vmin) :
    (∀ i j, cx * s + 1 ≤ i → i < cx * s + 1 + s → cy * s + 1 ≤ j → j < cy * s + 1 + s →
      (draw_cost_matrix_with_scale_factor imgbuf cm vmin vmax bmax a s true).pix i j =
        imgbuf.pix i j) ∧
    (∀ cmd ∈ draw_cost_matrix_labels cm vmin vmax s true,
      ¬(cmd.col = cx ∧ cmd.row = cy)) := by
  have hsymm : Symmetric (fun e₁ e₂ : CMEntry => e₁.1 ≠ e₂.1) :=
    fun _ _ h => h.symm
  have hcm : ∀ e ∈ cm, e.1 = (cx, cy) → (vmax < e.2 ∨ e.2 < vmin) := by
    intro e he hfst
    by_cases heq : e = ((cx, cy), v)
    · rw [heq]
      exact hout
    · exact absurd hfst (hpos.forall hsymm he hmem heq)
  constructor
  · intro i j g1 g2 g3 g4
    have hbuf : (get_cost_matrix_alpha_overlay cm imgbuf.width imgbuf.height s
        vmin vmax bmax a true).pix i j = ⟨0, 0, 0, 0⟩ := by
      unfold get_cost_matrix_alpha_overlay
      rw [overlay_fold_pix_preserved s vmin vmax bmax a cm cx cy i j g1 g2 g3 g4 hcm
        (mkImageBuffer imgbuf.width imgbuf.height)]
      rfl
    unfold draw_cost_matrix_with_scale_factor overlayComposite
    simp only
    by_cases hc : 0 ≤ i ∧ i < 0 + min (get_cost_matrix_alpha_overlay cm imgbuf.width
        imgbuf.height s vmin vmax bmax a true).width (imgbuf.width - 0) ∧
        0 ≤ j ∧ j < 0 + min (get_cost_matrix_alpha_overlay cm imgbuf.width
        imgbuf.height s vmin vmax bmax a true).height (imgbuf.height - 0)
    · rw [if_pos hc, Nat.sub_zero, Nat.sub_zero, hbuf]
      exact blendPixel_transparent_fg (imgbuf.pix i j) ⟨0, 0, 0, 0⟩ rfl
    · rw [if_neg hc]
  · intro cmd hcmd
    rintro ⟨hcol, hrow⟩
    unfold draw_cost_matrix_labels at hcmd
    rw [List.mem_filterMap] at hcmd
    obtain ⟨e, he, hfe⟩ := hcmd
    by_cases hz : e.2 = 0
    · rw [if_pos hz] at hfe
      exact Option.noConfusion hfe
    · rw [if_neg hz] at hfe
      by_cases hsk : (true : Bool) ∧ (vmax < e.2 ∨ e.2 < vmin)
      · rw [if_pos hsk] at hfe
        exact Option.noConfusion hfe
      · rw [if_neg hsk] at hfe
        have hcmdeq : cmd = ⟨e.1.1, e.1.2, toString e.2, s, textScaleFor s e.2⟩ :=
          (Option.some.injEq _ _ ▸ hfe).symm
        have hfst : e.1 = (cx, cy) := by
          rw [hcmdeq] at hcol hrow
          simp only at hcol hrow
          exact Prod.ext hcol hrow
        exact hsk ⟨rfl, hcm e he hfst⟩

/-- Witness for C3: cost matrix with cell (0,0) at out-of-range value 11
(v_max = 10) under skip — the pixel (1,1) inside that cell's block is
unchanged and no label command targets the cell. -/
theorem skip_cell_untouched_witness :
    (draw_cost_matrix_with_scale_factor (create_image_with_size_params 2 1 2)
        [((0, 0), 11), ((1, 0), 5)] 0 10 200 100 2 true).pix 1 1 =
      (create_image_with_size_params 2 1 2).pix 1 1 ∧
    (∀ cmd ∈ draw_cost_matrix_labels [((0, 0), 11), ((1, 0), 5)] 0 10 2 true,
      ¬(cmd.col = 0 ∧ cmd.row = 0)) := by
  have h := skip_cell_untouched (create_image_with_size_params 2 1 2)
    [((0, 0), 11), ((1, 0), 5)] 0 10 200 100 2 0 0 11
    (by decide) (by decide) (by decide)
  exact ⟨h.1 1 1 (by decide) (by decide) (by decide) (by decide), h.2⟩
